import Mathlib

/-!
Verification development for the zoomcutter video-compositing planner
(`src/main.py`).  The Python source is shallowly embedded: times are
rationals (the source manipulates them with exact-looking arithmetic:
subtraction, `max`, comparisons), Python `None` becomes `Option`,
Python truthiness of optionals/floats/strings is modelled explicitly,
and fallible parsing returns `Option`/`Except`.
-/

/-- A sharing interval: `(start, end)` where `none` as the second
component is the open-ended ("sharing never stopped") sentinel, exactly
the `(start, None)` pairs of `get_sharing_intervals`. -/
abbrev Iv : Type := ℚ × Option ℚ

/-- Python truthiness of an optional float: `None` and `0.0` are falsy,
everything else truthy.  Used wherever the source writes
`if start_trim:` / `if end:` / `if end_trim and ...`. -/
def pyTruthyQ : Option ℚ → Bool
  | none => false
  | some x => decide (x ≠ 0)

/-- `(start_trim or 0)` from `src/main.py:163,169`: the value of
`start_trim` when truthy, else `0`. -/
def stOr0 (st : Option ℚ) : ℚ :=
  if pyTruthyQ st then st.getD 0 else 0

/-- One step of the interval-adjustment loop, `src/main.py:155-172`:
re-base by `start_trim` (clamping a negative start to 0, and shifting a
*truthy* end), drop when the (clamped) start is at or past the boundary
`end_trim - (start_trim or 0)`, drop when the end is truthy and `≤ 0`,
clamp an end that is `None` or past the boundary to the boundary.
Returns `none` when the interval is dropped (`continue`). -/
def clipOne (st et : Option ℚ) (p : Iv) : Option Iv :=
  let s1 : ℚ := if pyTruthyQ st then max 0 (p.1 - st.getD 0) else p.1
  let e1 : Option ℚ :=
    if pyTruthyQ st && pyTruthyQ p.2 then p.2.map (fun e => e - st.getD 0) else p.2
  if pyTruthyQ et && decide (et.getD 0 - stOr0 st ≤ s1) then none
  else if pyTruthyQ e1 && decide (e1.getD 0 ≤ 0) then none
  else
    let e2 : Option ℚ :=
      if pyTruthyQ et && (e1.isNone || decide (et.getD 0 - stOr0 st < e1.getD 0)) then
        some (et.getD 0 - stOr0 st)
      else e1
    some (s1, e2)

/-- The interval clipper, `src/main.py:152-173`: when either trim value
is truthy the adjustment loop runs over the intervals in order; with no
truthy trim the list is passed through unchanged. -/
def clipIntervals (ivs : List Iv) (st et : Option ℚ) : List Iv :=
  if pyTruthyQ st || pyTruthyQ et then ivs.filterMap (clipOne st et) else ivs

/-- One membership test of an enable expression, as emitted at
`src/main.py:184-198`: `lt(t,B)`, `lt(t,inf)`, `between(t,A,B)` or
`gte(t,A)`. -/
inductive EnableTerm : Type
  | lt (b : ℚ)
  | ltInf
  | between (a b : ℚ)
  | gte (a : ℚ)
deriving DecidableEq

/-- Evaluation of a membership test at playback time `t`, following the
target engine's documented expression semantics: `lt(t,b)` is `t < b`,
`gte(t,a)` is `a ≤ t`, and `between(t,a,b)` is `a ≤ t ∧ t ≤ b`
(inclusive at *both* ends), `lt(t,inf)` always holds. -/
def evalTerm : EnableTerm → ℚ → Bool
  | .lt b, t => decide (t < b)
  | .ltInf, _ => true
  | .between a b, t => decide (a ≤ t) && decide (t ≤ b)
  | .gte a, t => decide (a ≤ t)

/-- An enable expression joined with `+` (`src/main.py:201-202`) is
active exactly when some membership test holds. -/
def anyActive (l : List EnableTerm) (t : ℚ) : Bool :=
  l.any (fun e => evalTerm e t)

/-- The speaker terms appended inside the loop `src/main.py:186-198`:
nothing for an open interval; for a bounded interval, `between(end,
next_start)` when a successor exists, else `gte(end)`. -/
def spLoop : List Iv → List EnableTerm
  | [] => []
  | (_, none) :: rest => spLoop rest
  | (_, some e) :: rest =>
    match rest with
    | [] => [.gte e]
    | (s2, _) :: _ => .between e s2 :: spLoop rest

/-- The combined-view (side-by-side) terms, one per interval
(`src/main.py:188-191`): `gte(start)` for an open interval,
`between(start,end)` for a bounded one. -/
def sbTerms : List Iv → List EnableTerm
  | [] => []
  | (s, none) :: rest => .gte s :: sbTerms rest
  | (s, some e) :: rest => .between s e :: sbTerms rest

/-- The full speaker term list (`src/main.py:183-198`): a leading
`lt(t, first_start)` — `lt(t,inf)` on an empty interval list — when
there are no intervals or the first starts after 0, then the loop
terms. -/
def speakerTerms (ivs : List Iv) : List EnableTerm :=
  (match ivs with
   | [] => [.ltInf]
   | (s, _) :: _ => if 0 < s then [.lt s] else []) ++ spLoop ivs

/-- Speaker predicate activity at time `t`. -/
def spActive (ivs : List Iv) (t : ℚ) : Bool :=
  anyActive (speakerTerms ivs) t

/-- Combined (side-by-side) predicate activity at time `t`. -/
def sbActive (ivs : List Iv) (t : ℚ) : Bool :=
  anyActive (sbTerms ivs) t

/-- Rendering of a rational for the serialized graph.  The Python
source interpolates float `repr`s; the embedding only needs a
deterministic injective-enough rendering, so numerator/denominator
notation is used. -/
def renderQ (q : ℚ) : String :=
  toString q.num ++ (if q.den = 1 then "" else "/" ++ toString q.den)

/-- Serialization of one membership test to the engine syntax
(`src/main.py:184-198`). -/
def renderTerm : EnableTerm → String
  | .lt b => "lt(t," ++ renderQ b ++ ")"
  | .ltInf => "lt(t,inf)"
  | .between a b => "between(t," ++ renderQ a ++ "," ++ renderQ b ++ ")"
  | .gte a => "gte(t," ++ renderQ a ++ ")"

/-- `'+'.join(terms) if terms else '0'` (`src/main.py:201-202`). -/
def exprString (l : List EnableTerm) : String :=
  if l.isEmpty then "0" else String.intercalate "+" (l.map renderTerm)

/-! ## String parsing: `time_to_seconds` and `parse_dimensions` -/

/-- Python's `str.split(sep)` on a character list: always returns at
least one (possibly empty) chunk. -/
def pySplit (sep : Char) : List Char → List (List Char)
  | [] => [[]]
  | c :: rest =>
    if c = sep then [] :: pySplit sep rest
    else
      match pySplit sep rest with
      | [] => [[c]]
      | g :: gs => (c :: g) :: gs

/-- Decimal value of a digit string. -/
def digitsVal (cs : List Char) : ℕ :=
  cs.foldl (fun a c => a * 10 + (c.toNat - 48)) 0

/-- All characters are decimal digits. -/
def allDigits (cs : List Char) : Bool :=
  cs.all Char.isDigit

/-- Model of Python's `int(str)` on the strings this program feeds it:
an optional sign followed by a non-empty digit string; anything else
raises (here: `none`).  (Python also accepts surrounding whitespace and
`_` digit separators; those forms never reach the parser here and are
not modelled.) -/
def pyInt : List Char → Option ℤ
  | [] => none
  | '-' :: rest =>
    if rest.isEmpty then none
    else if allDigits rest then some (-(digitsVal rest : ℤ)) else none
  | '+' :: rest =>
    if rest.isEmpty then none
    else if allDigits rest then some ((digitsVal rest : ℤ)) else none
  | cs => if allDigits cs then some ((digitsVal cs : ℤ)) else none

/-- Unsigned decimal mantissa of Python's `float(str)`: digits with an
optional single decimal point, at least one digit overall. -/
def pyFloatCore (cs : List Char) : Option ℚ :=
  let ip := cs.takeWhile Char.isDigit
  let rest := cs.dropWhile Char.isDigit
  match rest with
  | [] => if ip.isEmpty then none else some ((digitsVal ip : ℚ))
  | '.' :: fp =>
    if allDigits fp && !(ip.isEmpty && fp.isEmpty) then
      some ((digitsVal ip : ℚ) + (digitsVal fp : ℚ) / (10 : ℚ) ^ fp.length)
    else none
  | _ => none

/-- Model of Python's `float(str)` on decimal forms: optional sign then
a mantissa.  (Exponent, `inf`/`nan` and whitespace forms are not
modelled; the program's inputs are plain decimal timestamps.) -/
def pyFloat : List Char → Option ℚ
  | '-' :: rest => (pyFloatCore rest).map (fun q => -q)
  | '+' :: rest => pyFloatCore rest
  | cs => pyFloatCore cs

/-- `time_to_seconds`, `src/main.py:71-83`: empty (falsy) input yields
`None`; `H:M:S` and `M:S` parse their pieces with `int`/`float`;
*anything else* — one field, or four or more fields — takes
`float(parts[0])`.  A failed conversion raises `ValueError` naming the
offending piece (modelled as `Except.error`). -/
def time_to_seconds (s : String) : Except String (Option ℚ) :=
  if s = "" then Except.ok none
  else
    match pySplit ':' s.toList with
    | [h, m, sec] =>
      match pyInt h with
      | none => Except.error ("invalid literal for int: " ++ String.mk h)
      | some hv =>
        match pyInt m with
        | none => Except.error ("invalid literal for int: " ++ String.mk m)
        | some mv =>
          match pyFloat sec with
          | none => Except.error ("could not convert string to float: " ++ String.mk sec)
          | some sv => Except.ok (some ((hv : ℚ) * 3600 + (mv : ℚ) * 60 + sv))
    | [m, sec] =>
      match pyInt m with
      | none => Except.error ("invalid literal for int: " ++ String.mk m)
      | some mv =>
        match pyFloat sec with
        | none => Except.error ("could not convert string to float: " ++ String.mk sec)
        | some sv => Except.ok (some ((mv : ℚ) * 60 + sv))
    | ps =>
      match pyFloat (ps.headD []) with
      | none => Except.error ("could not convert string to float: " ++ String.mk (ps.headD []))
      | some v => Except.ok (some v)

/-- Did the computation fail? -/
def isErr {ε α : Type} : Except ε α → Bool
  | .error _ => true
  | .ok _ => false

instance {ε α : Type} [DecidableEq ε] [DecidableEq α] : DecidableEq (Except ε α)
  | .ok a, .ok b =>
    if h : a = b then .isTrue (congrArg Except.ok h)
    else .isFalse (fun he => h (Except.ok.inj he))
  | .ok _, .error _ => .isFalse (fun he => Except.noConfusion he)
  | .error _, .ok _ => .isFalse (fun he => Except.noConfusion he)
  | .error e, .error f =>
    if h : e = f then .isTrue (congrArg Except.error h)
    else .isFalse (fun he => h (Except.error.inj he))

/-- The spec's notion of a well-formed time string — `HH:MM:SS`,
`MM:SS`, or bare seconds, with numeric components.  Stated from the
spec's words, to be compared against what `time_to_seconds` accepts. -/
def validTimeString (s : String) : Bool :=
  match pySplit ':' s.toList with
  | [x] => (pyFloat x).isSome
  | [m, x] => (pyInt m).isSome && (pyFloat x).isSome
  | [h, m, x] => (pyInt h).isSome && (pyInt m).isSome && (pyFloat x).isSome
  | _ => false

/-- Python `str.strip().lower()` on a character list (whitespace strip,
ASCII lowering). -/
def stripLower (cs : List Char) : List Char :=
  (((cs.dropWhile Char.isWhitespace).reverse.dropWhile Char.isWhitespace).reverse).map
    Char.toLower

/-- `parse_dimensions`, `src/main.py:86-124`: falsy input fails; after
strip/lower, a string containing `x` must split into exactly two
positive integers; otherwise a string ending in `p` yields
`(int(height*16/9), height)` when positive; everything else fails. -/
def parse_dimensions (s : String) : Option (ℤ × ℤ) :=
  if s = "" then none
  else
    let d := stripLower s.toList
    if d.contains 'x' then
      match pySplit 'x' d with
      | [a, b] =>
        match pyInt a, pyInt b with
        | some w, some h => if decide (0 < w) && decide (0 < h) then some (w, h) else none
        | _, _ => none
      | _ => none
    else if d.getLast? = some 'p' then
      match pyInt d.dropLast with
      | some h =>
        let w : ℤ := h * 16 / 9
        if decide (0 < w) && decide (0 < h) then some (w, h) else none
      | none => none
    else none

/-! ## The interval extractor: `get_sharing_intervals` -/

/-- Substring test on character lists (Python's `needle in hay`). -/
def listHasSub (needle hay : List Char) : Bool :=
  hay.tails.any (fun t => needle.isPrefixOf t)

/-- Substring test on strings. -/
def strHasSub (needle hay : String) : Bool :=
  listHasSub needle.toList hay.toList

/-- A chapter record as the extractor sees it (`src/main.py:53-55`):
the `tags.title` string (defaulting to `''`) and the raw `start_time`
string, parsed with `float` per chapter. -/
structure Chapter : Type where
  title : String
  start_time : String
deriving DecidableEq

/-- The extractor loop of `src/main.py:48-68` over raw chapters, with
the running optional `sharing_start`.  `float(chapter['start_time'])`
is evaluated for *every* chapter before the title tests, so a malformed
timestamp anywhere aborts the whole scan with an error and no partial
output.  A title containing the start token sets (overwrites) the
pending start; otherwise a title containing the stop token while a
start is pending emits `(pending, this_time)`; a trailing pending
start emits one open-ended interval. -/
def gsiAuxE : Option ℚ → List Chapter → Except String (List Iv)
  | pending, [] =>
    Except.ok (match pending with | some s => [(s, none)] | none => [])
  | pending, ch :: rest =>
    match pyFloat ch.start_time.toList with
    | none => Except.error ("could not convert string to float: " ++ ch.start_time)
    | some t =>
      if strHasSub "Sharing Started" ch.title then gsiAuxE (some t) rest
      else if strHasSub "Sharing Stopped" ch.title && pending.isSome then
        (gsiAuxE none rest).map (fun l => (pending.getD 0, some t) :: l)
      else gsiAuxE pending rest

/-- `get_sharing_intervals`, `src/main.py:48-68`. -/
def get_sharing_intervals (chapters : List Chapter) : Except String (List Iv) :=
  gsiAuxE none chapters

/-- The same extractor loop over already-parsed markers
`(title, time)`, the form in which every other component consumes
them. -/
def gsiAux : Option ℚ → List (String × ℚ) → List Iv
  | pending, [] => match pending with | some s => [(s, none)] | none => []
  | pending, (title, t) :: rest =>
    if strHasSub "Sharing Started" title then gsiAux (some t) rest
    else if strHasSub "Sharing Stopped" title && pending.isSome then
      (pending.getD 0, some t) :: gsiAux none rest
    else gsiAux pending rest

/-- Extractor on parsed markers. -/
def get_sharing_intervalsP (markers : List (String × ℚ)) : List Iv :=
  gsiAux none markers

/-- One step of the marker state machine as the spec words it
(sections 4.1 and 9): state is the optional pending start plus the
intervals emitted so far; a start-token marker overwrites the pending
start; a stop-token marker with a pending start emits the closed
interval and clears it; a stop with no pending start — or any other
marker — changes nothing. -/
def specStep : Option ℚ × List Iv → String × ℚ → Option ℚ × List Iv
  | (pending, acc), (title, t) =>
    if strHasSub "Sharing Started" title then (some t, acc)
    else if strHasSub "Sharing Stopped" title then
      match pending with
      | some s => (none, acc ++ [(s, some t)])
      | none => (pending, acc)
    else (pending, acc)

/-- Spec section 4.1: any trailing pending start emits one open-ended
interval. -/
def specFinish : Option ℚ × List Iv → List Iv
  | (some s, acc) => acc ++ [(s, none)]
  | (none, acc) => acc

/-- The extractor as the spec describes it: a fold of `specStep` over
the markers, finished by `specFinish`. -/
def specExtract (markers : List (String × ℚ)) : List Iv :=
  specFinish (markers.foldl specStep (none, []))

/-! ## The graph compiler: `build_filter_complex` -/

/-- Python truthiness of an optional positive int (`output_width if
output_width else cam_width`). -/
def pyTruthyN : Option ℕ → Bool
  | none => false
  | some n => decide (n ≠ 0)

/-- Python truthiness of an optional string (`if background_image:`):
`None` and `''` are falsy. -/
def pyTruthyS : Option String → Bool
  | none => false
  | some s => decide (s ≠ "")

/-- `half_width = final_width // 2`, `src/main.py:295`. -/
def halfWidth (finalWidth : ℕ) : ℕ :=
  finalWidth / 2

/-- The two side-by-side regions as (width, height) pairs, exactly as
padded at `src/main.py:298-306`: the slides (`[1:v]` scaled and padded
to `half_width × final_height`) and the camera (`[cam_half]` scaled
and padded to `half_width × final_height`), then `hstack`ed with the
slides on the left. -/
def sideBySideRegions (finalWidth finalHeight : ℕ) : (ℕ × ℕ) × (ℕ × ℕ) :=
  ((halfWidth finalWidth, finalHeight), (halfWidth finalWidth, finalHeight))

/-- The split the spec describes for side-by-side: left half
`floor(width/2)`, right half the *remainder* `width - floor(width/2)`,
both full height.  Stated from the spec's words, to be compared with
`sideBySideRegions`. -/
def specSideBySideRegions (finalWidth finalHeight : ℕ) : (ℕ × ℕ) × (ℕ × ℕ) :=
  ((finalWidth / 2, finalHeight), (finalWidth - finalWidth / 2, finalHeight))

/-- Background canvas parts (`src/main.py:216-231`): a background
image part, a colored canvas part when the color is not `black`, or
nothing; paired with the optional `[bg]` base-canvas label. -/
def bgParts (fw fh : ℕ) (bgColor : String) (bgImage : Option String) :
    List String × Option String :=
  if pyTruthyS bgImage then
    (["movie=" ++ bgImage.getD "" ++ ":loop=0,setpts=N/(FRAME_RATE*TB),scale=" ++
        toString fw ++ ":" ++ toString fh ++ ":force_original_aspect_ratio=decrease,pad=" ++
        toString fw ++ ":" ++ toString fh ++ ":(ow-iw)/2:(oh-ih)/2:" ++ bgColor ++ "[bg]"],
      some "[bg]")
  else if bgColor ≠ "black" then
    (["color=c=" ++ bgColor ++ ":s=" ++ toString fw ++ "x" ++ toString fh ++ "[bg]"],
      some "[bg]")
  else ([], none)

/-- The `[cam_speaker]` part (`src/main.py:239-263`): when scaling is
needed or a base canvas exists the camera is scaled and padded (and
overlaid on the canvas); with no scaling and no canvas it is a plain
copy. -/
def camSpeakerPart (fw fh : ℕ) (bgColor : String) (needsScaling : Bool)
    (base : Option String) : String :=
  if needsScaling then
    match base with
    | some bc =>
      "[cam_full]scale=" ++ toString fw ++ ":-1:force_original_aspect_ratio=decrease,pad=" ++
        toString fw ++ ":" ++ toString fh ++ ":(ow-iw)/2:(oh-ih)/2:" ++ bgColor ++
        "[cam_speaker_sized];" ++ bc ++ "[cam_speaker_sized]overlay=(W-w)/2:(H-h)/2[cam_speaker]"
    | none =>
      "[cam_full]scale=" ++ toString fw ++ ":-1:force_original_aspect_ratio=decrease,pad=" ++
        toString fw ++ ":" ++ toString fh ++ ":(ow-iw)/2:(oh-ih)/2:black[cam_speaker]"
  else
    match base with
    | some bc =>
      "[cam_full]scale=" ++ toString fw ++ ":-1:force_original_aspect_ratio=decrease,pad=" ++
        toString fw ++ ":" ++ toString fh ++ ":(ow-iw)/2:(oh-ih)/2:" ++ bgColor ++
        "[cam_speaker_sized];" ++ bc ++ "[cam_speaker_sized]overlay=(W-w)/2:(H-h)/2[cam_speaker]"
    | none => "[cam_full]copy[cam_speaker]"

/-- Diagonal-layout parts (`src/main.py:266-291`): slides at 72% width
left-aligned, camera at 30% width overlaid bottom-right with a 20px
margin, its height assumed from a 4:3 aspect ratio. -/
def diagParts (fw fh : ℕ) (bgColor : String) : List String :=
  let slidesWidth : ℕ := fw * 72 / 100
  let camSmallWidth : ℕ := fw * 30 / 100
  let camX : ℤ := (fw : ℤ) - (camSmallWidth : ℤ) - 20
  let camY : ℤ := (fh : ℤ) - ((camSmallWidth * 75 / 100 : ℕ) : ℤ) - 20
  ["[cam_half]scale=" ++ toString camSmallWidth ++
     ":-1:force_original_aspect_ratio=decrease[cam_small]",
   "[1:v]scale=" ++ toString slidesWidth ++ ":-1:force_original_aspect_ratio=decrease,pad=" ++
     toString fw ++ ":" ++ toString fh ++ ":0:(oh-ih)/2:" ++ bgColor ++ "[slides_pad]",
   "[slides_pad][cam_small]overlay=" ++ toString camX ++ ":" ++ toString camY ++ "[combined]"]

/-- Side-by-side layout parts (`src/main.py:293-311`): camera and
slides each scaled and padded to `half_width × final_height`, then
`hstack`ed with slides on the left. -/
def sbsParts (fw fh : ℕ) (bgColor : String) : List String :=
  ["[cam_half]scale=" ++ toString (halfWidth fw) ++
     ":-1:force_original_aspect_ratio=decrease,pad=" ++ toString (halfWidth fw) ++ ":" ++
     toString fh ++ ":(ow-iw)/2:(oh-ih)/2:" ++ bgColor ++ "[cam_side]",
   "[1:v]scale=" ++ toString (halfWidth fw) ++
     ":-1:force_original_aspect_ratio=decrease,pad=" ++ toString (halfWidth fw) ++ ":" ++
     toString fh ++ ":(ow-iw)/2:(oh-ih)/2:" ++ bgColor ++ "[slides]",
   "[slides][cam_side]hstack=inputs=2[combined]"]

/-- The terminal time-gated overlay (`src/main.py:314-318`): the
combined stream over the speaker stream, enabled by the side-by-side
expression. -/
def terminalPart (sbExpr : String) : String :=
  "[cam_speaker][combined]overlay=enable='" ++ sbExpr ++ "':x=0:y=0[v]"

/-- The ordered `filter_parts` list built by `build_filter_complex`
(`src/main.py:127-318`): clip the intervals, build both enable
expressions (the speaker expression is computed and then never used,
as in the source), pick final dimensions by truthiness, then assemble
background, camera split, speaker branch, layout branch and the
terminal overlay. -/
def buildFilterParts (ivs : List Iv) (camW camH : ℕ) (st et : Option ℚ)
    (outW outH : Option ℕ) (layout bgColor : String) (bgImage : Option String) :
    List String :=
  let ivsC := clipIntervals ivs st et
  let speaker_expr := exprString (speakerTerms ivsC)
  let sidebyside_expr := exprString (sbTerms ivsC)
  let fw := if pyTruthyN outW then outW.getD 0 else camW
  let fh := if pyTruthyN outH then outH.getD 0 else camH
  let needsScaling := outW.isSome && outH.isSome
  let bp := bgParts fw fh bgColor bgImage
  let _ := speaker_expr
  bp.1 ++
    ["[0:v]split=2[cam_full][cam_half]",
     camSpeakerPart fw fh bgColor needsScaling bp.2] ++
    (if layout = "diagonal" then diagParts fw fh bgColor else sbsParts fw fh bgColor) ++
    [terminalPart sidebyside_expr]

/-- `build_filter_complex` returns `';'.join(filter_parts)`
(`src/main.py:320`). -/
def build_filter_complex (ivs : List Iv) (camW camH : ℕ) (st et : Option ℚ)
    (outW outH : Option ℕ) (layout bgColor : String) (bgImage : Option String) : String :=
  String.intercalate ";" (buildFilterParts ivs camW camH st et outW outH layout bgColor bgImage)

/-! ## Interval-list invariants (the `TimelineIntervals` data model) -/

/-- A bounded interval's start does not exceed its end (trivial for an
open interval). -/
def boundedLeB (p : Iv) : Bool :=
  match p.2 with
  | some e => decide (p.1 ≤ e)
  | none => true

/-- Adjacency of consecutive intervals: the earlier one must be
bounded, with its end at or before the later one's start. -/
def ivChainB (p q : Iv) : Bool :=
  match p.2 with
  | some e => decide (e ≤ q.1)
  | none => false

/-- Every consecutive pair satisfies `ivChainB` — so intervals are
chronologically non-decreasing and only the last may be open-ended. -/
def chainB : List Iv → Bool
  | [] => true
  | [_] => true
  | p :: q :: rest => ivChainB p q && chainB (q :: rest)

/-- The `TimelineIntervals` invariant of the data model: ordered,
non-overlapping intervals, bounded ones non-degenerate (`start ≤ end` —
degenerate equal endpoints are included because the clipper can emit
them), open-ended only in final position. -/
def IntervalsInv (ivs : List Iv) : Prop :=
  ivs.all boundedLeB = true ∧ chainB ivs = true

/-- Adjacent strict increase of marker timestamps. -/
def timesIncr : List (String × ℚ) → Prop :=
  List.Pairwise (fun a b => a.2 < b.2)

/-! ## C7 — dimension parsing -/

/-- C7: `parse_dimensions` maps `"1920x1080"` to `(1920,1080)` and
`"1080p"` to `(1920,1080)`, and rejects `"0x500"`, `"bogus"` and the
empty string. -/
theorem C7_parse_dimensions :
    parse_dimensions "1920x1080" = some (1920, 1080) ∧
    parse_dimensions "1080p" = some (1920, 1080) ∧
    parse_dimensions "0x500" = none ∧
    parse_dimensions "bogus" = none ∧
    parse_dimensions "" = none := by
  exact ⟨by decide, by decide, by decide, by decide, by decide⟩

/-! ## C3 — the clipper's per-interval pipeline and the `end == 0` drop -/

/-- C3: evaluation of the clipper at the decisive inputs.  With
`start_trim = 10`, the interval `(5,8)` is dropped as the claim says;
but the interval `(5,10)`, whose re-based end is exactly `0`, is *not*
dropped: the guard `if end and end <= 0` treats the float `0.0` as
falsy, so the degenerate interval `(0, 0.0)` is kept, contradicting the
claim's (and the spec's) step "drop if clamped end ≤ 0". -/
theorem C3_clipper_end_zero_kept :
    clipIntervals [(5, some 8)] (some 10) none = [] ∧
    clipIntervals [(5, some 10)] (some 10) none = [(0, some 0)] := by
  constructor <;>
    norm_num [clipIntervals, clipOne, pyTruthyQ, stOr0, List.filterMap]

/-! ## C2 — clipping is not idempotent -/

/-- C2 counterexample: re-clipping with the same window is *not* a
no-op when `start_trim` is truthy — the start trim is subtracted a
second time.  `[(5,20)]` clipped by `start_trim = 10` gives
`[(0,10)]`; clipping that again gives `[(0,0)]`. -/
theorem C2_counterexample :
    clipIntervals (clipIntervals [(5, some 20)] (some 10) none) (some 10) none ≠
      clipIntervals [(5, some 20)] (some 10) none := by
  have h1 : clipIntervals [(5, some 20)] (some 10) none = [(0, some 10)] := by
    norm_num [clipIntervals, clipOne, pyTruthyQ, stOr0, List.filterMap]
  have h2 : clipIntervals [(0, some 10)] (some 10) none = [(0, some 0)] := by
    norm_num [clipIntervals, clipOne, pyTruthyQ, stOr0, List.filterMap]
  rw [h1, h2]
  norm_num

/-- A Python-falsy optional float is `None` or `0.0`. -/
lemma pyTruthyQ_false_iff (o : Option ℚ) :
    pyTruthyQ o = false ↔ o = none ∨ o = some 0 := by
  cases o with
  | none => simp [pyTruthyQ]
  | some x => simp [pyTruthyQ]

/-- A falsy start trim behaves exactly like an absent one. -/
lemma clipOne_falsy_st (st et : Option ℚ) (hst : pyTruthyQ st = false) (p : Iv) :
    clipOne st et p = clipOne none et p := by
  rcases (pyTruthyQ_false_iff st).mp hst with rfl | rfl
  · rfl
  · simp [clipOne, pyTruthyQ, stOr0]

/-- Stability of one clipping step with no start trim and a positive
end trim: an interval the clipper keeps is kept unchanged by a second
pass. -/
lemma clipOne_stable (b : ℚ) (hb : 0 < b) {p q : Iv}
    (h : clipOne none (some b) p = some q) : clipOne none (some b) q = some q := by
  obtain ⟨s, eo⟩ := p
  cases eo with
  | none =>
    by_cases hbs : b ≤ s
    · simp [clipOne, pyTruthyQ, stOr0, hb.ne', hbs] at h
    · simp only [clipOne, pyTruthyQ, stOr0] at h
      simp [hb.ne', hbs] at h
      obtain rfl : (s, some b) = q := by simpa using h
      simp [clipOne, pyTruthyQ, stOr0, hb.ne', hbs, hb.not_le, lt_irrefl]
  | some v =>
    by_cases hbs : b ≤ s
    · simp [clipOne, pyTruthyQ, stOr0, hb.ne', hbs] at h
    · by_cases hv0 : v = 0
      · subst hv0
        simp only [clipOne, pyTruthyQ, stOr0] at h
        simp [hb.ne', hbs, hb.not_lt] at h
        obtain rfl : (s, some (0 : ℚ)) = q := by simpa using h
        simp [clipOne, pyTruthyQ, stOr0, hb.ne', hbs, hb.not_lt]
      · by_cases hvle : v ≤ 0
        · simp [clipOne, pyTruthyQ, stOr0, hb.ne', hbs, hv0, hvle] at h
        · push_neg at hvle
          by_cases hbv : b < v
          · simp only [clipOne, pyTruthyQ, stOr0] at h
            simp [hb.ne', hbs, hv0, hvle.not_le, hbv] at h
            obtain rfl : (s, some b) = q := by simpa using h
            simp [clipOne, pyTruthyQ, stOr0, hb.ne', hbs, hb.not_le, lt_irrefl]
          · simp only [clipOne, pyTruthyQ, stOr0] at h
            simp [hb.ne', hbs, hv0, hvle.not_le, hbv] at h
            obtain rfl : (s, some v) = q := by simpa using h
            simp [clipOne, pyTruthyQ, stOr0, hb.ne', hbs, hv0, hvle.not_le, hbv]

/-- C2 (amended): clipping *is* idempotent whenever the start trim is
absent or zero (Python-falsy) and the end trim, if present, is
non-negative; the counterexample above shows idempotence fails for a
truthy start trim. -/
theorem C2_idempotent_no_start_trim (ivs : List Iv) (st et : Option ℚ)
    (hst : pyTruthyQ st = false) (het : ∀ b : ℚ, et = some b → 0 ≤ b) :
    clipIntervals (clipIntervals ivs st et) st et = clipIntervals ivs st et := by
  cases hetT : pyTruthyQ et with
  | false => simp [clipIntervals, hst, hetT]
  | true =>
    cases et with
    | none => simp [pyTruthyQ] at hetT
    | some b =>
      have hb0 : b ≠ 0 := by
        intro h0
        rw [h0] at hetT
        simp [pyTruthyQ] at hetT
      have hb : 0 < b := lt_of_le_of_ne (het b rfl) (Ne.symm hb0)
      have hfun : clipOne st (some b) = clipOne none (some b) :=
        funext (clipOne_falsy_st st (some b) hst)
      simp only [clipIntervals, hst, hetT, Bool.false_or, if_true]
      rw [List.filterMap_filterMap]
      apply List.filterMap_congr
      intro p _
      rw [hfun]
      cases hp : clipOne none (some b) p with
      | none => rfl
      | some q => simpa [hp] using clipOne_stable b hb hp

/-- C2 witness: a concrete instance of the amended idempotence — an
end-trim-only window applied twice. -/
theorem C2_witness :
    pyTruthyQ none = false ∧
    clipIntervals (clipIntervals [(5, some 20), (30, none)] none (some 25)) none (some 25) =
      clipIntervals [(5, some 20), (30, none)] none (some 25) :=
  ⟨rfl, C2_idempotent_no_start_trim [(5, some 20), (30, none)] none (some 25) rfl
    (fun b hb => by injection hb with hb; rw [← hb]; norm_num)⟩

/-! ## C6 — side-by-side geometry -/

/-- C6 counterexample: for the odd canvas width 1921 the code gives
both regions width `1921 / 2 = 960`, while the claim's split
`(floor(w/2), w - floor(w/2))` would give the right (camera) region
width 961. -/
theorem C6_counterexample :
    sideBySideRegions 1921 1080 ≠ specSideBySideRegions 1921 1080 := by decide

/-- C6 (amended): both side-by-side regions are full height with width
`floor(width/2)`; this agrees with the claimed `(floor(width/2),
remainder)` split exactly on even widths. -/
theorem C6_sideBySide_even (w h : ℕ) (hw : w % 2 = 0) :
    sideBySideRegions w h = specSideBySideRegions w h := by
  unfold sideBySideRegions specSideBySideRegions halfWidth
  have hrem : w - w / 2 = w / 2 := by omega
  rw [hrem]

/-- C6 witness: at canvas width 1920 the split is even and both
regions are `960 × 1080`. -/
theorem C6_witness :
    1920 % 2 = 0 ∧
    sideBySideRegions 1920 1080 = specSideBySideRegions 1920 1080 ∧
    sideBySideRegions 1920 1080 = ((960, 1080), (960, 1080)) :=
  ⟨by decide, C6_sideBySide_even 1920 1080 (by decide), by decide⟩

/-! ## C4 — the extractor is the spec's state-machine fold -/

/-- The extractor loop, started in any state with any accumulator,
agrees with the spec's fold. -/
lemma gsi_fold_general (ms : List (String × ℚ)) : ∀ (pending : Option ℚ) (acc : List Iv),
    specFinish (ms.foldl specStep (pending, acc)) = acc ++ gsiAux pending ms := by
  induction ms with
  | nil =>
    intro pending acc
    cases pending <;> simp [specFinish, gsiAux]
  | cons m rest ih =>
    intro pending acc
    obtain ⟨title, t⟩ := m
    cases h1 : strHasSub "Sharing Started" title with
    | true => simp [specStep, h1, gsiAux, ih]
    | false =>
      cases h2 : strHasSub "Sharing Stopped" title with
      | false => simp [specStep, h1, h2, gsiAux, ih]
      | true =>
        cases pending with
        | some s => simp [specStep, h1, h2, gsiAux, ih]
        | none => simp [specStep, h1, h2, gsiAux, ih]

/-- C4: on every marker sequence the extractor behaves exactly as the
spec's fold with one optional pending start: start overwrites the
pending start, stop-with-pending emits the closed interval and clears,
stray stops are ignored, a trailing pending start emits one open-ended
interval, and the empty sequence yields the empty list. -/
theorem C4_extractor_is_spec_fold (ms : List (String × ℚ)) :
    get_sharing_intervalsP ms = specExtract ms := by
  have h := gsi_fold_general ms none []
  simpa [get_sharing_intervalsP, specExtract] using h.symm

/-! ## C5 — extractor output ordering -/

/-- C5 counterexample: on an unordered marker sequence (stop before
start), the extractor emits the bounded interval `(5, 3)` whose start
is not less than its end. -/
theorem C5_counterexample :
    get_sharing_intervalsP [("Sharing Started", 5), ("Sharing Stopped", 3)] = [(5, some 3)] ∧
    ¬ ((5 : ℚ) < 3) := by
  exact ⟨by decide, by decide⟩

/-- Every interval start produced by the extractor loop is bounded
below by any common lower bound of the pending start and the remaining
marker times. -/
lemma gsiAux_start_lb (lb : ℚ) : ∀ (ms : List (String × ℚ)) (pending : Option ℚ),
    (∀ s : ℚ, pending = some s → lb ≤ s) → (∀ m ∈ ms, lb ≤ m.2) →
    ∀ p ∈ gsiAux pending ms, lb ≤ p.1 := by
  intro ms
  induction ms with
  | nil =>
    intro pending hp _ p hmem
    cases pending with
    | none => simp [gsiAux] at hmem
    | some s =>
      simp only [gsiAux, List.mem_singleton] at hmem
      rw [hmem]
      exact hp s rfl
  | cons m rest ih =>
    intro pending hp hms p hmem
    obtain ⟨title, t⟩ := m
    have hlt : lb ≤ t := hms (title, t) (List.mem_cons_self _ _)
    have hrest : ∀ m' ∈ rest, lb ≤ m'.2 := fun m' hm' => hms m' (List.mem_cons_of_mem _ hm')
    by_cases h1 : strHasSub "Sharing Started" title = true
    · simp only [gsiAux, h1, if_true] at hmem
      exact ih (some t) (fun s hs => by injection hs with hs; rw [← hs]; exact hlt) hrest p hmem
    · by_cases h2 : (strHasSub "Sharing Stopped" title && pending.isSome) = true
      · obtain ⟨s0, rfl⟩ : ∃ s0, pending = some s0 := by
          cases pending with
          | none => simp at h2
          | some s0 => exact ⟨s0, rfl⟩
        simp only [gsiAux, h1, if_false, h2, if_true, Bool.false_eq_true] at hmem
        rcases List.mem_cons.mp hmem with rfl | hmem'
        · exact hp s0 rfl
        · exact ih none (fun s hs => Option.noConfusion hs) hrest p hmem'
      · simp only [gsiAux, h1, h2, if_false, Bool.false_eq_true] at hmem
        exact ih pending hp hrest p hmem

/-- Extractor output on strictly increasing markers: bounded intervals
are non-degenerate and consecutive intervals chain (so only the last
can be open-ended). -/
lemma gsiAux_sorted : ∀ (ms : List (String × ℚ)) (pending : Option ℚ),
    timesIncr ms →
    (∀ s : ℚ, pending = some s → ∀ m ∈ ms, s < m.2) →
    (∀ a e : ℚ, (a, some e) ∈ gsiAux pending ms → a < e) ∧
    chainB (gsiAux pending ms) = true := by
  intro ms
  induction ms with
  | nil =>
    intro pending _ _
    cases pending with
    | none => exact ⟨by simp [gsiAux], by simp [gsiAux, chainB]⟩
    | some s => exact ⟨by simp [gsiAux], by simp [gsiAux, chainB]⟩
  | cons m rest ih =>
    intro pending hinc hp
    obtain ⟨title, t⟩ := m
    have hinc' : timesIncr rest := (List.pairwise_cons.mp hinc).2
    have hhead : ∀ m' ∈ rest, t < m'.2 := (List.pairwise_cons.mp hinc).1
    by_cases h1 : strHasSub "Sharing Started" title = true
    · simp only [gsiAux, h1, if_true]
      exact ih (some t) hinc'
        (fun s hs m' hm' => by injection hs with hs; rw [← hs]; exact hhead m' hm')
    · by_cases h2 : (strHasSub "Sharing Stopped" title && pending.isSome) = true
      · obtain ⟨s0, rfl⟩ : ∃ s0, pending = some s0 := by
          cases pending with
          | none => simp at h2
          | some s0 => exact ⟨s0, rfl⟩
        have hs0t : s0 < t := hp s0 rfl (title, t) (List.mem_cons_self _ _)
        have ihres := ih none hinc' (fun s hs => Option.noConfusion hs)
        simp only [gsiAux, h1, if_false, h2, if_true, Bool.false_eq_true, Option.getD_some]
        constructor
        · intro a e hmem
          rcases List.mem_cons.mp hmem with heq | hmem'
          · have ha : a = s0 := congrArg Prod.fst heq
            have he : some e = some t := congrArg Prod.snd heq
            injection he with he
            rw [ha, he]
            exact hs0t
          · exact ihres.1 a e hmem'
        · cases hout : gsiAux none rest with
          | nil => simp [chainB]
          | cons q out2 =>
            have hq : t ≤ q.1 := by
              refine gsiAux_start_lb t rest none (fun s hs => Option.noConfusion hs)
                (fun m' hm' => (hhead m' hm').le) q ?_
              rw [hout]
              exact List.mem_cons_self _ _
            have hchain : chainB (q :: out2) = true := by
              have := ihres.2
              rw [hout] at this
              exact this
            simp [chainB, ivChainB, hq, hchain]
      · simp only [gsiAux, h1, h2, if_false, Bool.false_eq_true]
        exact ih pending hinc' (fun s hs m' hm' => hp s hs m' (List.mem_cons_of_mem _ hm'))

/-- C5 (amended): for marker sequences with strictly increasing
timestamps — the order chapters arrive in — every bounded extracted
interval satisfies `start < end` and the output is chronologically
chained, with an open-ended interval possible only in last position.
The counterexample above shows the unrestricted claim fails. -/
theorem C5_extractor_sorted (ms : List (String × ℚ)) (h : timesIncr ms) :
    (∀ a e : ℚ, (a, some e) ∈ get_sharing_intervalsP ms → a < e) ∧
    chainB (get_sharing_intervalsP ms) = true :=
  gsiAux_sorted ms none h (fun _ hs => Option.noConfusion hs)

/-- C5 witness: a concrete increasing marker sequence, its chained
output, and the `start < end` instance extracted through the
theorem. -/
theorem C5_witness :
    timesIncr [("Sharing Started", 5), ("Sharing Stopped", 20), ("Sharing Started", 30)] ∧
    chainB (get_sharing_intervalsP
      [("Sharing Started", 5), ("Sharing Stopped", 20), ("Sharing Started", 30)]) = true ∧
    (5 : ℚ) < 20 := by
  have h : timesIncr [("Sharing Started", 5), ("Sharing Stopped", 20), ("Sharing Started", 30)] := by
    norm_num [timesIncr, List.pairwise_cons]
  refine ⟨h, (C5_extractor_sorted _ h).2, (C5_extractor_sorted _ h).1 5 20 ?_⟩
  decide

/-! ## C9 — determinism of the graph compiler -/

/-- C9: the graph compiler is a pure function of its inputs — two runs
on identical interval sets, camera dimensions, trim window, output
dimensions, layout and background settings produce byte-identical
graph descriptions.  The source builds the string by a fixed sequence
of appends over its arguments, with no other inputs. -/
theorem C9_deterministic
    (ivs₁ ivs₂ : List Iv) (camW₁ camW₂ camH₁ camH₂ : ℕ) (st₁ st₂ et₁ et₂ : Option ℚ)
    (outW₁ outW₂ outH₁ outH₂ : Option ℕ) (layout₁ layout₂ bgColor₁ bgColor₂ : String)
    (bgImage₁ bgImage₂ : Option String)
    (h : (ivs₁, camW₁, camH₁, st₁, et₁, outW₁, outH₁, layout₁, bgColor₁, bgImage₁) =
         (ivs₂, camW₂, camH₂, st₂, et₂, outW₂, outH₂, layout₂, bgColor₂, bgImage₂)) :
    build_filter_complex ivs₁ camW₁ camH₁ st₁ et₁ outW₁ outH₁ layout₁ bgColor₁ bgImage₁ =
    build_filter_complex ivs₂ camW₂ camH₂ st₂ et₂ outW₂ outH₂ layout₂ bgColor₂ bgImage₂ := by
  simp only [Prod.mk.injEq] at h
  obtain ⟨rfl, rfl, rfl, rfl, rfl, rfl, rfl, rfl, rfl, rfl⟩ := h
  rfl

/-- C9 witness: the determinism theorem applied at one concrete
input. -/
theorem C9_witness :
    build_filter_complex [(5, some 20)] 1280 720 none none none none
      "side-by-side" "black" none =
    build_filter_complex [(5, some 20)] 1280 720 none none none none
      "side-by-side" "black" none :=
  C9_deterministic [(5, some 20)] [(5, some 20)] 1280 1280 720 720 none none none none
    none none none none "side-by-side" "side-by-side" "black" "black" none none rfl

/-! ## C10 — the terminal gate references only the combined expression -/

/-- C10: every part of the compiled graph except the terminal overlay
is independent of the interval set — so the separately computed speaker
enable expression (dead in the source) cannot occur anywhere — and the
terminal part is exactly the overlay gated by the combined (side-by-
side) enable expression of the clipped intervals; the joined output is
the `';'` join of the parts.  Under the engine's gating semantics the
base (speaker) branch is therefore shown exactly when that combined
expression is false. -/
theorem C10_terminal_gate (ivs ivs' : List Iv) (camW camH : ℕ) (st et : Option ℚ)
    (outW outH : Option ℕ) (layout bgColor : String) (bgImage : Option String) :
    (buildFilterParts ivs camW camH st et outW outH layout bgColor bgImage).dropLast =
      (buildFilterParts ivs' camW camH st et outW outH layout bgColor bgImage).dropLast ∧
    (buildFilterParts ivs camW camH st et outW outH layout bgColor bgImage).getLast? =
      some (terminalPart (exprString (sbTerms (clipIntervals ivs st et)))) ∧
    build_filter_complex ivs camW camH st et outW outH layout bgColor bgImage =
      String.intercalate ";" (buildFilterParts ivs camW camH st et outW outH layout bgColor bgImage) := by
  refine ⟨?_, ?_, rfl⟩
  · simp only [buildFilterParts]
    rw [List.dropLast_concat, List.dropLast_concat]
  · simp only [buildFilterParts]
    rw [List.getLast?_concat]

/-! ## C8 — fail-fast time parsing -/

/-- C8 counterexample: `"1:2:3:4"` is of none of the forms `HH:MM:SS`,
`MM:SS` or bare seconds, yet `time_to_seconds` does not fail — the
`else` branch takes `float(parts[0])` and *guesses* the value `1.0`. -/
theorem C8_counterexample :
    validTimeString "1:2:3:4" = false ∧
    time_to_seconds "1:2:3:4" = Except.ok (some 1) := by
  exact ⟨by decide, by decide⟩

/-- A nonempty time string with at most three colon-separated fields
that is not of a valid form makes `time_to_seconds` raise. -/
lemma time_to_seconds_err (s : String) (hs : s ≠ "")
    (hlen : (pySplit ':' s.toList).length ≤ 3) (hval : validTimeString s = false) :
    isErr (time_to_seconds s) = true := by
  unfold validTimeString at hval
  unfold time_to_seconds
  rw [if_neg hs]
  rcases hps : pySplit ':' s.toList with _ | ⟨a, _ | ⟨b, _ | ⟨c, _ | ⟨d, rest2⟩⟩⟩⟩
  · rw [hps] at hval
    simp [isErr, pyFloat, pyFloatCore]
  · rw [hps] at hval
    cases h1 : pyFloat a with
    | none => simp [h1, isErr]
    | some v => simp [h1] at hval
  · rw [hps] at hval
    cases h1 : pyInt a with
    | none => simp [h1, isErr]
    | some va =>
      cases h2 : pyFloat b with
      | none => simp [h1, h2, isErr]
      | some vb => simp [h1, h2] at hval
  · rw [hps] at hval
    cases h1 : pyInt a with
    | none => simp [h1, isErr]
    | some va =>
      cases h2 : pyInt b with
      | none => simp [h1, h2, isErr]
      | some vb =>
        cases h3 : pyFloat c with
        | none => simp [h1, h2, h3, isErr]
        | some vc => simp [h1, h2, h3] at hval
  · rw [hps] at hlen
    simp at hlen

/-- Mapping the success value does not change failure. -/
lemma isErr_map {ε α β : Type} (f : α → β) (e : Except ε α) :
    isErr (e.map f) = isErr e := by
  cases e <;> rfl

/-- A malformed chapter timestamp anywhere aborts the whole extractor
scan with an error, whatever the pending state. -/
lemma gsiAuxE_err : ∀ (chs : List Chapter) (pending : Option ℚ),
    (∃ c ∈ chs, pyFloat c.start_time.toList = none) →
    isErr (gsiAuxE pending chs) = true := by
  intro chs
  induction chs with
  | nil =>
    intro pending h
    obtain ⟨c, hc, _⟩ := h
    exact absurd hc (List.not_mem_nil _)
  | cons ch rest ih =>
    intro pending h
    simp only [String.toList] at h
    cases hp : pyFloat ch.start_time.data with
    | none => simp [gsiAuxE, String.toList, hp, isErr]
    | some t =>
      obtain ⟨c, hc, hcn⟩ := h
      rcases List.mem_cons.mp hc with rfl | hc'
      · rw [hp] at hcn
        exact Option.noConfusion hcn
      · have hrest : ∃ c' ∈ rest, pyFloat c'.start_time.toList = none :=
          ⟨c, hc', by simpa [String.toList] using hcn⟩
        simp only [gsiAuxE, String.toList, hp]
        by_cases h1 : strHasSub "Sharing Started" ch.title = true
        · simpa [h1] using ih (some t) hrest
        · by_cases h2 : (strHasSub "Sharing Stopped" ch.title && pending.isSome) = true
          · simpa [h1, h2, isErr_map] using ih none hrest
          · simpa [h1, h2] using ih pending hrest

/-- C8 (amended): every nonempty time string with at most three
colon-separated fields that is not of the form `HH:MM:SS`, `MM:SS` or
bare seconds makes the parser raise (naming the offending component),
and any chapter with a malformed timestamp aborts the extractor with an
error; the counterexample above shows that strings with four or more
fields are instead silently parsed as bare seconds from their first
field. -/
theorem C8_parse_errors :
    (∀ s : String, s ≠ "" → (pySplit ':' s.toList).length ≤ 3 →
      validTimeString s = false → isErr (time_to_seconds s) = true) ∧
    (∀ chs : List Chapter, (∃ c ∈ chs, pyFloat c.start_time.toList = none) →
      isErr (get_sharing_intervals chs) = true) :=
  ⟨time_to_seconds_err, fun chs h => gsiAuxE_err chs none h⟩

/-- C8 witness: the malformed time string `"abc"` and a chapter with a
malformed timestamp both produce errors, through the theorem. -/
theorem C8_witness :
    validTimeString "abc" = false ∧
    isErr (time_to_seconds "abc") = true ∧
    isErr (get_sharing_intervals [⟨"Sharing Started", "oops"⟩]) = true :=
  ⟨by decide,
   C8_parse_errors.1 "abc" (by decide) (by decide) (by decide),
   C8_parse_errors.2 [⟨"Sharing Started", "oops"⟩]
     ⟨⟨"Sharing Started", "oops"⟩, by decide, by decide⟩⟩

/-! ## C1 — predicate coverage and boundary behaviour -/

/-- C1 counterexample: on the (trivially) clipped interval set
`[(5,20)]`, at the bounded interval end `t = 20` the speaker and the
combined predicates are *both* active — `between`/`gte` tests are
inclusive — so the two predicates are not "never simultaneously
active", and at a bounded end the combined predicate (which gates the
terminal overlay) is active, not only the speaker one. -/
theorem C1_counterexample :
    spActive (clipIntervals [(5, some 20)] none none) 20 = true ∧
    sbActive (clipIntervals [(5, some 20)] none none) 20 = true := by
  exact ⟨by decide, by decide⟩

lemma anyActive_cons (e : EnableTerm) (l : List EnableTerm) (t : ℚ) :
    anyActive (e :: l) t = (evalTerm e t || anyActive l t) := rfl

lemma anyActive_append (l1 l2 : List EnableTerm) (t : ℚ) :
    anyActive (l1 ++ l2) t = (anyActive l1 t || anyActive l2 t) := by
  simp [anyActive]

/-- Past the first interval's start, the loop terms alone cover every
instant. -/
lemma cover_loop : ∀ (rest : List Iv) (s : ℚ) (eo : Option ℚ) (t : ℚ), s ≤ t →
    anyActive (spLoop ((s, eo) :: rest)) t = true ∨
    anyActive (sbTerms ((s, eo) :: rest)) t = true := by
  intro rest
  induction rest with
  | nil =>
    intro s eo t hst
    cases eo with
    | none =>
      right
      simp [sbTerms, anyActive, evalTerm, hst]
    | some e =>
      by_cases hte : t ≤ e
      · right
        simp [sbTerms, anyActive, evalTerm, hst, hte]
      · left
        push_neg at hte
        simp [spLoop, anyActive, evalTerm, hte.le]
  | cons q rest2 ih =>
    intro s eo t hst
    obtain ⟨s2, eo2⟩ := q
    cases eo with
    | none =>
      right
      simp [sbTerms, anyActive_cons, evalTerm, hst]
    | some e =>
      by_cases hte : t ≤ e
      · right
        simp [sbTerms, anyActive_cons, evalTerm, hst, hte]
      · push_neg at hte
        by_cases hts2 : t ≤ s2
        · left
          simp [spLoop, anyActive_cons, evalTerm, hte.le, hts2]
        · push_neg at hts2
          rcases ih s2 eo2 t hts2.le with hl | hr
          · left
            simp [spLoop, anyActive_cons, hl]
          · right
            simp [sbTerms, anyActive_cons, hr]

/-- Zero gap: at every non-negative instant at least one predicate is
active. -/
lemma cover_all (ivs : List Iv) (t : ℚ) (ht : 0 ≤ t) :
    spActive ivs t = true ∨ sbActive ivs t = true := by
  cases ivs with
  | nil =>
    left
    simp [spActive, speakerTerms, spLoop, anyActive, evalTerm]
  | cons p rest =>
    obtain ⟨s, eo⟩ := p
    by_cases hts : t < s
    · left
      have hs : 0 < s := lt_of_le_of_lt ht hts
      simp [spActive, speakerTerms, hs, anyActive_append, anyActive_cons, evalTerm, hts]
    · push_neg at hts
      rcases cover_loop rest s eo t hts with hl | hr
      · left
        simp [spActive, speakerTerms, anyActive_append, hl]
      · right
        exact hr

/-- Each interval's own combined test is active at its start. -/
lemma sb_at_start : ∀ (l : List Iv), (∀ p ∈ l, boundedLeB p = true) →
    ∀ p ∈ l, anyActive (sbTerms l) p.1 = true := by
  intro l
  induction l with
  | nil =>
    intro _ p hp
    exact absurd hp (List.not_mem_nil _)
  | cons q rest ih =>
    intro hb p hp
    rcases List.mem_cons.mp hp with rfl | hp'
    · obtain ⟨s, eo⟩ := p
      cases eo with
      | none => simp [sbTerms, anyActive_cons, evalTerm]
      | some e =>
        have hse : s ≤ e := by
          simpa [boundedLeB] using hb (s, some e) (List.mem_cons_self _ _)
        simp [sbTerms, anyActive_cons, evalTerm, hse]
    · have hrec := ih (fun r hr => hb r (List.mem_cons_of_mem _ hr)) p hp'
      obtain ⟨s0, eo0⟩ := q
      cases eo0 with
      | none => simp [sbTerms, anyActive_cons, hrec]
      | some e0 => simp [sbTerms, anyActive_cons, hrec]

/-- Each bounded interval's combined test is active at its end. -/
lemma sb_at_end : ∀ (l : List Iv), (∀ p ∈ l, boundedLeB p = true) →
    ∀ s e : ℚ, (s, some e) ∈ l → anyActive (sbTerms l) e = true := by
  intro l
  induction l with
  | nil =>
    intro _ s e hm
    exact absurd hm (List.not_mem_nil _)
  | cons q rest ih =>
    intro hb s e hm
    rcases List.mem_cons.mp hm with heq | hm'
    · subst heq
      have hse : s ≤ e := by
        simpa [boundedLeB] using hb (s, some e) (List.mem_cons_self _ _)
      simp [sbTerms, anyActive_cons, evalTerm, hse]
    · have hrec := ih (fun r hr => hb r (List.mem_cons_of_mem _ hr)) s e hm'
      obtain ⟨s0, eo0⟩ := q
      cases eo0 with
      | none => simp [sbTerms, anyActive_cons, hrec]
      | some e0 => simp [sbTerms, anyActive_cons, hrec]

/-- Each bounded interval's follow-on speaker test is active at its
end. -/
lemma sp_at_end : ∀ (l : List Iv), chainB l = true →
    ∀ s e : ℚ, (s, some e) ∈ l → anyActive (spLoop l) e = true := by
  intro l
  induction l with
  | nil =>
    intro _ s e hm
    exact absurd hm (List.not_mem_nil _)
  | cons q rest ih =>
    intro hch s e hm
    rcases List.mem_cons.mp hm with heq | hm'
    · subst heq
      cases rest with
      | nil => simp [spLoop, anyActive, evalTerm]
      | cons r rest2 =>
        obtain ⟨s2, eo2⟩ := r
        have hch1 : ivChainB (s, some e) (s2, eo2) = true := by
          simp [chainB] at hch
          exact hch.1
        have he2 : e ≤ s2 := by simpa [ivChainB] using hch1
        simp [spLoop, anyActive_cons, evalTerm, he2]
    · obtain ⟨s0, eo0⟩ := q
      cases rest with
      | nil => exact absurd hm' (List.not_mem_nil _)
      | cons r rest2 =>
        have hch' : chainB (r :: rest2) = true := by
          simp [chainB] at hch
          exact hch.2
        have hterm := ih hch' s e hm'
        cases eo0 with
        | none =>
          have hfalse : ivChainB (s0, none) r = true := by
            simp [chainB] at hch
            exact hch.1
          simp [ivChainB] at hfalse
        | some e0 =>
          obtain ⟨s2, eo2⟩ := r
          simp [spLoop, anyActive_cons, hterm]

/-- A combined test active at `t` names an interval starting at or
before `t`. -/
lemma sb_exists_start : ∀ (l : List Iv) (t : ℚ), anyActive (sbTerms l) t = true →
    ∃ p ∈ l, p.1 ≤ t := by
  intro l
  induction l with
  | nil =>
    intro t h
    simp [sbTerms, anyActive] at h
  | cons q rest ih =>
    intro t h
    obtain ⟨s, eo⟩ := q
    cases eo with
    | none =>
      simp only [sbTerms, anyActive_cons, Bool.or_eq_true] at h
      rcases h with h | h
      · simp only [evalTerm, decide_eq_true_eq] at h
        exact ⟨(s, none), List.mem_cons_self _ _, h⟩
      · obtain ⟨p, hp, hpt⟩ := ih t h
        exact ⟨p, List.mem_cons_of_mem _ hp, hpt⟩
    | some e =>
      simp only [sbTerms, anyActive_cons, Bool.or_eq_true] at h
      rcases h with h | h
      · simp only [evalTerm, Bool.and_eq_true, decide_eq_true_eq] at h
        exact ⟨(s, some e), List.mem_cons_self _ _, h.1⟩
      · obtain ⟨p, hp, hpt⟩ := ih t h
        exact ⟨p, List.mem_cons_of_mem _ hp, hpt⟩

/-- A speaker loop test active at `t` names a bounded interval whose
end is at or before `t`. -/
lemma sp_exists_end : ∀ (l : List Iv) (t : ℚ), anyActive (spLoop l) t = true →
    ∃ p ∈ l, ∃ e : ℚ, p.2 = some e ∧ e ≤ t := by
  intro l
  induction l with
  | nil =>
    intro t h
    simp [spLoop, anyActive] at h
  | cons q rest ih =>
    intro t h
    obtain ⟨s, eo⟩ := q
    cases eo with
    | none =>
      obtain ⟨p, hp, hpe⟩ := ih t h
      exact ⟨p, List.mem_cons_of_mem _ hp, hpe⟩
    | some e =>
      cases rest with
      | nil =>
        have he : e ≤ t := by simpa [spLoop, anyActive, evalTerm] using h
        exact ⟨(s, some e), List.mem_cons_self _ _, e, rfl, he⟩
      | cons r rest2 =>
        obtain ⟨s2, eo2⟩ := r
        simp only [spLoop, anyActive_cons, Bool.or_eq_true] at h
        rcases h with h | h
        · simp only [evalTerm, Bool.and_eq_true, decide_eq_true_eq] at h
          exact ⟨(s, some e), List.mem_cons_self _ _, e, rfl, h.1⟩
        · obtain ⟨p, hp, hpe⟩ := ih t h
          exact ⟨p, List.mem_cons_of_mem _ hp, hpe⟩

/-- With the invariant, the head's start bounds every member's
start. -/
lemma head_start_le : ∀ (l : List Iv) (a : Iv),
    (∀ p ∈ a :: l, boundedLeB p = true) → chainB (a :: l) = true →
    ∀ p ∈ a :: l, a.1 ≤ p.1 := by
  intro l
  induction l with
  | nil =>
    intro a _ _ p hp
    rcases List.mem_cons.mp hp with rfl | hp'
    · exact le_refl _
    · exact absurd hp' (List.not_mem_nil _)
  | cons b rest ih =>
    intro a hb hch p hp
    have hab : ivChainB a b = true := by
      simp [chainB] at hch
      exact hch.1
    have hch' : chainB (b :: rest) = true := by
      simp [chainB] at hch
      exact hch.2
    have hex : ∃ e : ℚ, a.2 = some e ∧ e ≤ b.1 := by
      cases hA : a.2 with
      | none => simp [ivChainB, hA] at hab
      | some e =>
        refine ⟨e, rfl, ?_⟩
        simpa [ivChainB, hA] using hab
    obtain ⟨e, hae, heb⟩ := hex
    have hase : a.1 ≤ e := by
      simpa [boundedLeB, hae] using hb a (List.mem_cons_self _ _)
    have hab1 : a.1 ≤ b.1 := le_trans hase heb
    rcases List.mem_cons.mp hp with rfl | hp'
    · exact le_refl _
    · have := ih b (fun r hr => hb r (List.mem_cons_of_mem _ hr)) hch' p hp'
      exact le_trans hab1 this

/-- With the invariant, simultaneous activity of a speaker loop test
and a combined test happens only at an interval start or bounded
end. -/
lemma overlap_boundary : ∀ (l : List Iv),
    (∀ p ∈ l, boundedLeB p = true) → chainB l = true → ∀ t : ℚ,
    anyActive (spLoop l) t = true → anyActive (sbTerms l) t = true →
    ∃ p ∈ l, t = p.1 ∨ p.2 = some t := by
  intro l
  induction l with
  | nil =>
    intro _ _ t hsp _
    simp [spLoop, anyActive] at hsp
  | cons q rest ih =>
    intro hb hch t hsp hsb
    obtain ⟨s, eo⟩ := q
    cases eo with
    | none =>
      cases rest with
      | nil => simp [spLoop, anyActive] at hsp
      | cons r rest2 =>
        have hab : ivChainB (s, none) r = true := by
          simp [chainB] at hch
          exact hch.1
        simp [ivChainB] at hab
    | some e =>
      have hse : s ≤ e := by
        simpa [boundedLeB] using hb (s, some e) (List.mem_cons_self _ _)
      cases rest with
      | nil =>
        have he_t : e ≤ t := by simpa [spLoop, anyActive, evalTerm] using hsp
        have ht_e : t ≤ e := by
          have h2 := hsb
          simp [sbTerms, anyActive, evalTerm] at h2
          exact h2.2
        exact ⟨(s, some e), List.mem_cons_self _ _,
          Or.inr (by rw [le_antisymm ht_e he_t])⟩
      | cons r rest2 =>
        obtain ⟨s2, eo2⟩ := r
        have hch1 : ivChainB (s, some e) (s2, eo2) = true := by
          simp [chainB] at hch
          exact hch.1
        have he_s2 : e ≤ s2 := by simpa [ivChainB] using hch1
        have hch' : chainB ((s2, eo2) :: rest2) = true := by
          simp [chainB] at hch
          exact hch.2
        have hb' : ∀ p ∈ (s2, eo2) :: rest2, boundedLeB p = true :=
          fun p hp => hb p (List.mem_cons_of_mem _ hp)
        simp only [spLoop, anyActive_cons, Bool.or_eq_true] at hsp
        simp only [sbTerms, anyActive_cons, Bool.or_eq_true] at hsb
        rcases hsp with hsp1 | hsp2
        · simp only [evalTerm, Bool.and_eq_true, decide_eq_true_eq] at hsp1
          obtain ⟨het, hts2⟩ := hsp1
          rcases hsb with hsb1 | hsb2
          · simp only [evalTerm, Bool.and_eq_true, decide_eq_true_eq] at hsb1
            exact ⟨(s, some e), List.mem_cons_self _ _,
              Or.inr (by rw [le_antisymm hsb1.2 het])⟩
          · obtain ⟨p, hp, hpt⟩ := sb_exists_start _ t hsb2
            have hs2p : s2 ≤ p.1 := by
              simpa using head_start_le rest2 (s2, eo2) hb' hch' p hp
            have ht_p : t = p.1 := (le_antisymm hpt (le_trans hts2 hs2p)).symm
            exact ⟨p, List.mem_cons_of_mem _ hp, Or.inl ht_p⟩
        · rcases hsb with hsb1 | hsb2
          · simp only [evalTerm, Bool.and_eq_true, decide_eq_true_eq] at hsb1
            have hte : t ≤ e := hsb1.2
            obtain ⟨p, hp, e', hpe', he't⟩ := sp_exists_end _ t hsp2
            have hs2p : s2 ≤ p.1 := by
              simpa using head_start_le rest2 (s2, eo2) hb' hch' p hp
            have hp1e' : p.1 ≤ e' := by
              simpa [boundedLeB, hpe'] using hb' p hp
            have h1 : e ≤ e' := le_trans he_s2 (le_trans hs2p hp1e')
            have h2 : e' = t := le_antisymm he't (le_trans hte h1)
            exact ⟨p, List.mem_cons_of_mem _ hp, Or.inr (h2 ▸ hpe')⟩
          · obtain ⟨p, hp, hres⟩ := ih hb' hch' t hsp2 hsb2
            exact ⟨p, List.mem_cons_of_mem _ hp, hres⟩

/-- C1 (amended): under the interval-list invariant, the speaker and
combined predicates cover `[0,∞)` with no gap; the combined predicate
is active at every interval start (boundary ties at a start go to the
combined view); but the membership tests are closed, so at every
bounded interval end *both* predicates are active, and simultaneous
activity happens only at an interval start or bounded end. -/
theorem C1_predicates (ivs : List Iv) (hInv : IntervalsInv ivs) :
    (∀ t : ℚ, 0 ≤ t → spActive ivs t = true ∨ sbActive ivs t = true) ∧
    (∀ p ∈ ivs, sbActive ivs p.1 = true) ∧
    (∀ s e : ℚ, (s, some e) ∈ ivs → sbActive ivs e = true ∧ spActive ivs e = true) ∧
    (∀ t : ℚ, spActive ivs t = true → sbActive ivs t = true →
      ∃ p ∈ ivs, t = p.1 ∨ p.2 = some t) := by
  obtain ⟨hbAll, hch⟩ := hInv
  have hb : ∀ p ∈ ivs, boundedLeB p = true := fun p hp =>
    List.all_eq_true.mp hbAll p hp
  refine ⟨fun t ht => cover_all ivs t ht, ?_, ?_, ?_⟩
  · intro p hp
    exact sb_at_start ivs hb p hp
  · intro s e hm
    refine ⟨sb_at_end ivs hb s e hm, ?_⟩
    have hloop := sp_at_end ivs hch s e hm
    unfold spActive speakerTerms
    rw [anyActive_append]
    simp [hloop]
  · intro t hsp hsb
    unfold spActive speakerTerms at hsp
    rw [anyActive_append] at hsp
    simp only [Bool.or_eq_true] at hsp
    rcases hsp with hlead | hloop
    · cases ivs with
      | nil => simp [sbActive, sbTerms, anyActive] at hsb
      | cons q rest =>
        obtain ⟨s, eo⟩ := q
        by_cases hs : 0 < s
        · simp only [hs, if_true] at hlead
          have hts : t < s := by
            simpa [anyActive, evalTerm] using hlead
          obtain ⟨p, hp, hpt⟩ := sb_exists_start _ t hsb
          have hsp1 : s ≤ p.1 := by
            simpa using head_start_le rest (s, eo) hb hch p hp
          exact absurd (lt_of_le_of_lt hpt (lt_of_lt_of_le hts hsp1)) (lt_irrefl _)
        · simp [hs, anyActive] at hlead
    · exact overlap_boundary ivs hb hch t hloop hsb

/-- C1 witness: the concrete clipped set `[(5,20)]` satisfies the
invariant; through the theorem, a predicate is active at `t = 7`, the
combined predicate is active at the start `5`, and both predicates are
active at the bounded end `20`. -/
theorem C1_witness :
    IntervalsInv [(5, some 20)] ∧
    (spActive [(5, some 20)] 7 = true ∨ sbActive [(5, some 20)] 7 = true) ∧
    sbActive [(5, some 20)] 5 = true ∧
    (sbActive [(5, some 20)] 20 = true ∧ spActive [(5, some 20)] 20 = true) :=
  ⟨⟨by decide, by decide⟩,
   (C1_predicates [(5, some 20)] ⟨by decide, by decide⟩).1 7 (by decide),
   (C1_predicates [(5, some 20)] ⟨by decide, by decide⟩).2.1 (5, some 20)
     (List.mem_cons_self _ _),
   (C1_predicates [(5, some 20)] ⟨by decide, by decide⟩).2.2.1 5 20
     (List.mem_cons_self _ _)⟩
